import Mathlib

/-!
Verification development for the radical k-MST network optimizer.

The source program is a single Python module exposing `milp_kmst(coords,
c_coords, k, mip_gap, time_limit)`.  The function guards against empty or
oversized candidate lists, clamps `k`, builds a pruned undirected edge list,
encodes a directed single-commodity-flow MIP, hands it to an external solver
(Gurobi), and decodes the incumbent assignment into a `(selected_nodes,
selected_edges)` pair.

Modelling choices of this shallow embedding:

* Node identities follow the source, which uses the string `"C"` for the root
  and integer indices for candidates: `NodeId.root` and `NodeId.cand i`.
* Coordinates are rational pairs and every Euclidean distance is represented
  by its square (`sqDist`), which is exact rational arithmetic.  The source
  computes `float(np.hypot(*(a - b)))` and only ever compares distances with
  distances, so in exact real semantics each comparison of distances is
  equivalent to the same comparison of the squares (square root is monotone);
  the theorems about pruning state the square-root-level reading explicitly
  via `Real.sqrt`.
* The external Gurobi solver is an oracle parameter: a function from the
  built model data (pruned edge list, candidate count, clamped k, mip gap,
  time limit) to a solver outcome (an incumbent count `solCount` mirroring
  `model.SolCount`, plus a valuation of all variables).  The branch-priority
  annotations of the source (lines 116-120) are solver-performance hints with
  no semantic content and are not part of the model data.
* Console diagnostics (`print` calls) are returned as a list of strings, so
  that the guard paths of the source are fully observable.
-/

namespace KMST

/-- Node identity: the distinguished root (the string "C" in the source) or a
candidate index into the coordinate list. -/
inductive NodeId where
  | root : NodeId
  | cand : ℕ → NodeId
  deriving DecidableEq

/-- A pruned edge exactly as the source stores it: `(node1, node2, weight)`,
with the weight represented by its square. -/
abbrev PEdge := NodeId × NodeId × ℚ

/-- Squared Euclidean distance; the source computes
`float(np.hypot(*(a - b)))`, whose exact value is the square root of this. -/
def sqDist (p q : ℚ × ℚ) : ℚ :=
  (p.1 - q.1) * (p.1 - q.1) + (p.2 - q.2) * (p.2 - q.2)

/-- Position lookup, mirroring `node_positions`: the root maps to `c_coords`,
candidate `i` to `coords[i]`.  Indices are always in range where used. -/
def pos (coords : List (ℚ × ℚ)) (cpos : ℚ × ℚ) : NodeId → ℚ × ℚ
  | NodeId.root => cpos
  | NodeId.cand i => coords.getD i (0, 0)

/-- Node list `[root] + list(range(num_nodes))` of the source. -/
def nodesList (num : ℕ) : List NodeId :=
  NodeId.root :: (List.range num).map NodeId.cand

/-- Ordered pair enumeration of the source loops
`for i, node1 in enumerate(nodes): for node2 in nodes[i+1:]`. -/
def orderedPairs : List NodeId → List (NodeId × NodeId)
  | [] => []
  | x :: xs => xs.map (fun y => (x, y)) ++ orderedPairs xs

/-- Squared distance of a node to the root position, mirroring
`distances_to_root`. -/
def sqDistToRoot (coords : List (ℚ × ℚ)) (cpos : ℚ × ℚ) (n : NodeId) : ℚ :=
  sqDist (pos coords cpos n) cpos

/-- Pruning predicate of source line 52: keep the pair when an endpoint is the
root or the edge is no longer than the larger of the two endpoint-to-root
distances (stated on squares, which is equivalent for the exact values). -/
def keep (coords : List (ℚ × ℚ)) (cpos : ℚ × ℚ) (p : NodeId × NodeId) : Bool :=
  decide (p.1 = NodeId.root) || decide (p.2 = NodeId.root) ||
    decide (sqDist (pos coords cpos p.1) (pos coords cpos p.2) ≤
      max (sqDistToRoot coords cpos p.1) (sqDistToRoot coords cpos p.2))

/-- Pruned edge list of source lines 48-53. -/
def buildEdges (coords : List (ℚ × ℚ)) (cpos : ℚ × ℚ) : List PEdge :=
  ((orderedPairs (nodesList coords.length)).filter (keep coords cpos)).map
    (fun p => (p.1, p.2, sqDist (pos coords cpos p.1) (pos coords cpos p.2)))

/-- Clamping of source lines 35-37: `if k > num_nodes: k = num_nodes`. -/
def clampedK (num : ℕ) (k : ℤ) : ℤ :=
  if (num : ℤ) < k then (num : ℤ) else k

/-- Valuation of all decision variables, as read back from the solver
(`.X` attributes). -/
structure Assignment where
  nodeVal : NodeId → ℚ
  arcVal : NodeId → NodeId → ℚ
  flowVal : NodeId → NodeId → ℚ

/-- Solver outcome: incumbent count (`model.SolCount`) and the variable
valuation. -/
structure SolverResult where
  solCount : ℕ
  assign : Assignment

/-- The external MIP solver as an oracle over the model data handed to it:
pruned edges, candidate count, clamped k, mip gap and time limit. -/
abbrev Solver := List PEdge → ℕ → ℤ → ℚ → ℚ → SolverResult

/-- String form of a node identity as Python renders it inside
`sorted(..., key=str)`: the root is `"C"`, a candidate its decimal index. -/
def nodeStr : NodeId → String
  | NodeId.root => "C"
  | NodeId.cand i => toString i

/-- Canonical endpoint-pair key of source line 135:
`tuple(sorted((node1, node2), key=str))`. -/
def edgeKey (n1 n2 : NodeId) : NodeId × NodeId :=
  if nodeStr n1 < nodeStr n2 then (n1, n2) else (n2, n1)

/-- Decoder test of source line 134: either directional arc variable of the
edge exceeds 0.5. -/
def selectedArc (a : Assignment) (e : PEdge) : Bool :=
  decide ((0.5 : ℚ) < a.arcVal e.1 e.2.1) || decide ((0.5 : ℚ) < a.arcVal e.2.1 e.1)

/-- Decoded node list of source line 129:
`["C"] + [i for i in range(num_nodes) if node_variables[i].X > 0.5]`. -/
def decodeNodes (num : ℕ) (a : Assignment) : List NodeId :=
  NodeId.root ::
    ((List.range num).filter
      (fun i => decide ((0.5 : ℚ) < a.nodeVal (NodeId.cand i)))).map NodeId.cand

/-- Decoded edge list of source lines 130-138, with the `seen_edges` set
carried explicitly. -/
def decodeEdges (a : Assignment) : List PEdge → List (NodeId × NodeId) → List PEdge
  | [], _ => []
  | e :: rest, seen =>
    if selectedArc a e then
      if edgeKey e.1 e.2.1 ∈ seen then decodeEdges a rest seen
      else e :: decodeEdges a rest (edgeKey e.1 e.2.1 :: seen)
    else decodeEdges a rest seen

/-- Diagnostic of source line 36. -/
def clampMsg (num : ℕ) (k : ℤ) : String :=
  "This is not feasible, design for total " ++ toString num ++
    " nodes instead of " ++ toString k

/-- Diagnostic of source line 29. -/
def emptyMsg : String := "No candidate nodes provided."

/-- Diagnostic of source line 31. -/
def capacityMsg : String :=
  "Current version of model only supports up to 1500 nodes. Please use smaller node number for this model."

/-- Body of `milp_kmst` past the two guards: clamp k, build the pruned edge
list, hand the model to the solver, and decode (source lines 34-140). -/
def kmstCore (solver : Solver) (coords : List (ℚ × ℚ)) (cpos : ℚ × ℚ) (k : ℤ)
    (mipGap timeLimit : ℚ) : List String × List NodeId × List PEdge :=
  let num := coords.length
  let msgs := if (num : ℤ) < k then [clampMsg num k] else []
  let kc := clampedK num k
  let edges := buildEdges coords cpos
  let res := solver edges num kc mipGap timeLimit
  if res.solCount = 0 then (msgs, [NodeId.root], [])
  else (msgs, decodeNodes num res.assign, decodeEdges res.assign edges [])

/-- Shallow embedding of `milp_kmst`: the first component of the result is the
list of printed diagnostics, the second and third are the returned
`(selected_nodes, selected_edges)` pair. -/
def milp_kmst (solver : Solver) (coords : List (ℚ × ℚ)) (cpos : ℚ × ℚ) (k : ℤ)
    (mipGap timeLimit : ℚ) : List String × List NodeId × List PEdge :=
  if coords.length = 0 then ([emptyMsg], [], [])
  else if 1500 < coords.length then ([capacityMsg], [], [])
  else kmstCore solver coords cpos k mipGap timeLimit

/-- Binary variable domain (`vtype=GRB.BINARY`). -/
def isBinary (q : ℚ) : Prop := q = 0 ∨ q = 1

/-- Membership test `(x, y) in flow_variables` of the source: the dictionary
holds both orientations of every pruned edge, so the test holds exactly when
the unordered pair is a pruned edge. -/
def adjacent (edges : List PEdge) (x y : NodeId) : Bool :=
  edges.any (fun e =>
    (decide (e.1 = x) && decide (e.2.1 = y)) || (decide (e.1 = y) && decide (e.2.1 = x)))

/-- Outflow sum as the source writes it (lines 101-104 and 111-112): iterate
over the node list, keep the nodes distinct from `x` whose pair with `x` is in
the flow dictionary, and sum the flows leaving `x`. -/
def flowOutCode (edges : List PEdge) (num : ℕ) (a : Assignment) (x : NodeId) : ℚ :=
  (((nodesList num).filter (fun n => decide (n ≠ x) && adjacent edges x n)).map
    (fun n => a.flowVal x n)).sum

/-- Inflow sum as the source writes it (lines 102-103 and 109-110). -/
def flowInCode (edges : List PEdge) (num : ℕ) (a : Assignment) (x : NodeId) : ℚ :=
  (((nodesList num).filter (fun n => decide (n ≠ x) && adjacent edges x n)).map
    (fun n => a.flowVal n x)).sum

/-- Conjunction of the variable domains and constraints exactly as
`milp_kmst` adds them to the Gurobi model (source lines 65-113), in source
order: per pruned edge the two binary arc variables, the two flow variables
bounded by `[0, k-1]`, the `one_dir`, `flow_cap` constraints; then the binary
node variables, `root_selected`, `k_nodes`, `k_edges`, the `arc_node`
constraints, `root_flow`, and the per-candidate `flow_cons` constraints. -/
def codeFeasible (edges : List PEdge) (num : ℕ) (k : ℤ) (a : Assignment) : Prop :=
  (∀ e ∈ edges,
    isBinary (a.arcVal e.1 e.2.1) ∧ isBinary (a.arcVal e.2.1 e.1) ∧
    0 ≤ a.flowVal e.1 e.2.1 ∧ a.flowVal e.1 e.2.1 ≤ (k : ℚ) - 1 ∧
    0 ≤ a.flowVal e.2.1 e.1 ∧ a.flowVal e.2.1 e.1 ≤ (k : ℚ) - 1 ∧
    a.arcVal e.1 e.2.1 + a.arcVal e.2.1 e.1 ≤ 1 ∧
    a.flowVal e.1 e.2.1 ≤ ((k : ℚ) - 1) * a.arcVal e.1 e.2.1 ∧
    a.flowVal e.2.1 e.1 ≤ ((k : ℚ) - 1) * a.arcVal e.2.1 e.1) ∧
  (∀ n ∈ nodesList num, isBinary (a.nodeVal n)) ∧
  a.nodeVal NodeId.root = 1 ∧
  ((List.range num).map (fun i => a.nodeVal (NodeId.cand i))).sum = (k : ℚ) - 1 ∧
  (edges.map (fun e => a.arcVal e.1 e.2.1 + a.arcVal e.2.1 e.1)).sum = (k : ℚ) - 1 ∧
  (∀ e ∈ edges,
    a.arcVal e.1 e.2.1 ≤ a.nodeVal e.1 ∧ a.arcVal e.1 e.2.1 ≤ a.nodeVal e.2.1 ∧
    a.arcVal e.2.1 e.1 ≤ a.nodeVal e.1 ∧ a.arcVal e.2.1 e.1 ≤ a.nodeVal e.2.1) ∧
  flowOutCode edges num a NodeId.root - flowInCode edges num a NodeId.root = (k : ℚ) - 1 ∧
  (∀ j ∈ List.range num,
    flowInCode edges num a (NodeId.cand j) - flowOutCode edges num a (NodeId.cand j) =
      a.nodeVal (NodeId.cand j))

/-- Flow out of a node in the words of spec section 4.2: the sum, over the
model flow variables, of those whose arc leaves `x`; the model holds one flow
variable per orientation of each pruned edge. -/
def flowOutSpec (edges : List PEdge) (a : Assignment) (x : NodeId) : ℚ :=
  (edges.map (fun e =>
    if e.1 = x then a.flowVal x e.2.1
    else if e.2.1 = x then a.flowVal x e.1 else 0)).sum

/-- Flow into a node in the words of spec section 4.2. -/
def flowInSpec (edges : List PEdge) (a : Assignment) (x : NodeId) : ℚ :=
  (edges.map (fun e =>
    if e.1 = x then a.flowVal e.2.1 x
    else if e.2.1 = x then a.flowVal e.1 x else 0)).sum

/-- Conjunction of spec section 4.2, phrased from the spec text: binary
node-selection variables; per pruned edge two binary arc variables and two
flow variables in `[0, k-1]`; orientation exclusivity; flow capacity linkage;
root fixed; cardinality (sum of non-root node-selection variables, sum of all
arc variables); arc-implies-endpoints; flow conservation at the root; flow
conservation at every non-root node. -/
def spec42Feasible (edges : List PEdge) (num : ℕ) (k : ℤ) (a : Assignment) : Prop :=
  (∀ n ∈ nodesList num, isBinary (a.nodeVal n)) ∧
  (∀ e ∈ edges,
    isBinary (a.arcVal e.1 e.2.1) ∧ isBinary (a.arcVal e.2.1 e.1) ∧
    0 ≤ a.flowVal e.1 e.2.1 ∧ a.flowVal e.1 e.2.1 ≤ (k : ℚ) - 1 ∧
    0 ≤ a.flowVal e.2.1 e.1 ∧ a.flowVal e.2.1 e.1 ≤ (k : ℚ) - 1) ∧
  (∀ e ∈ edges, a.arcVal e.1 e.2.1 + a.arcVal e.2.1 e.1 ≤ 1) ∧
  (∀ e ∈ edges,
    a.flowVal e.1 e.2.1 ≤ ((k : ℚ) - 1) * a.arcVal e.1 e.2.1 ∧
    a.flowVal e.2.1 e.1 ≤ ((k : ℚ) - 1) * a.arcVal e.2.1 e.1) ∧
  a.nodeVal NodeId.root = 1 ∧
  (((nodesList num).filter (fun n => decide (n ≠ NodeId.root))).map a.nodeVal).sum =
    (k : ℚ) - 1 ∧
  (edges.map (fun e => a.arcVal e.1 e.2.1 + a.arcVal e.2.1 e.1)).sum = (k : ℚ) - 1 ∧
  (∀ e ∈ edges,
    a.arcVal e.1 e.2.1 ≤ a.nodeVal e.1 ∧ a.arcVal e.1 e.2.1 ≤ a.nodeVal e.2.1 ∧
    a.arcVal e.2.1 e.1 ≤ a.nodeVal e.1 ∧ a.arcVal e.2.1 e.1 ≤ a.nodeVal e.2.1) ∧
  flowOutSpec edges a NodeId.root - flowInSpec edges a NodeId.root = (k : ℚ) - 1 ∧
  (∀ n ∈ nodesList num, n ≠ NodeId.root →
    flowInSpec edges a n - flowOutSpec edges a n = a.nodeVal n)

/-- Two endpoint pairs name the same unordered pair. -/
def samePair (p q : NodeId × NodeId) : Prop :=
  (p.1 = q.1 ∧ p.2 = q.2) ∨ (p.1 = q.2 ∧ p.2 = q.1)

lemma samePair_symm {p q : NodeId × NodeId} (h : samePair p q) : samePair q p := by
  rcases h with ⟨h1, h2⟩ | ⟨h1, h2⟩
  · exact Or.inl ⟨h1.symm, h2.symm⟩
  · exact Or.inr ⟨h2.symm, h1.symm⟩

lemma samePair_refl (p : NodeId × NodeId) : samePair p p := Or.inl ⟨rfl, rfl⟩

lemma mem_orderedPairs {l : List NodeId} {p : NodeId × NodeId}
    (h : p ∈ orderedPairs l) : p.1 ∈ l ∧ p.2 ∈ l := by
  induction l with
  | nil => simp [orderedPairs] at h
  | cons x xs ih =>
    rw [orderedPairs, List.mem_append] at h
    rcases h with h | h
    · obtain ⟨y, hy, rfl⟩ := List.mem_map.mp h
      exact ⟨List.mem_cons_self _ _, List.mem_cons_of_mem _ hy⟩
    · obtain ⟨h1, h2⟩ := ih h
      exact ⟨List.mem_cons_of_mem _ h1, List.mem_cons_of_mem _ h2⟩

lemma orderedPairs_ne {l : List NodeId} (hl : l.Nodup) {p : NodeId × NodeId}
    (h : p ∈ orderedPairs l) : p.1 ≠ p.2 := by
  induction l with
  | nil => simp [orderedPairs] at h
  | cons x xs ih =>
    rw [orderedPairs, List.mem_append] at h
    rcases h with h | h
    · obtain ⟨y, hy, rfl⟩ := List.mem_map.mp h
      intro hxy
      have hxy2 : x = y := hxy
      cases hxy2
      exact (List.nodup_cons.mp hl).1 hy
    · exact ih (List.nodup_cons.mp hl).2 h

lemma orderedPairs_pairwise {l : List NodeId} (hl : l.Nodup) :
    (orderedPairs l).Pairwise (fun p q => ¬ samePair p q) := by
  induction l with
  | nil => simp [orderedPairs]
  | cons x xs ih =>
    obtain ⟨hx, hxs⟩ := List.nodup_cons.mp hl
    rw [orderedPairs, List.pairwise_append]
    refine ⟨List.pairwise_map.mpr ?_, ih hxs, ?_⟩
    · refine List.Pairwise.imp_of_mem ?_ hxs
      intro a b ha hb hab hsp
      rcases hsp with ⟨_, h2⟩ | ⟨h1, _⟩
      · exact hab h2
      · refine hx ?_
        have hb2 : x = b := h1
        rw [hb2]
        exact hb
    · intro p hp q hq hsp
      obtain ⟨y, hy, rfl⟩ := List.mem_map.mp hp
      obtain ⟨hq1, hq2⟩ := mem_orderedPairs hq
      rcases hsp with ⟨h1, _⟩ | ⟨h1, _⟩
      · refine hx ?_
        have h1b : x = q.1 := h1
        rw [h1b]
        exact hq1
      · refine hx ?_
        have h1b : x = q.2 := h1
        rw [h1b]
        exact hq2

lemma orderedPairs_complete {l : List NodeId} {a b : NodeId}
    (ha : a ∈ l) (hb : b ∈ l) (hne : a ≠ b) :
    (a, b) ∈ orderedPairs l ∨ (b, a) ∈ orderedPairs l := by
  induction l with
  | nil => simp at ha
  | cons x xs ih =>
    rcases List.mem_cons.mp ha with rfl | ha
    · left
      rw [orderedPairs, List.mem_append]
      left
      exact List.mem_map.mpr ⟨b, List.mem_of_ne_of_mem (Ne.symm hne) hb, rfl⟩
    · rcases List.mem_cons.mp hb with rfl | hb
      · right
        rw [orderedPairs, List.mem_append]
        left
        exact List.mem_map.mpr ⟨a, List.mem_of_ne_of_mem hne ha, rfl⟩
      · rcases ih ha hb with h | h
        · left
          rw [orderedPairs, List.mem_append]
          exact Or.inr h
        · right
          rw [orderedPairs, List.mem_append]
          exact Or.inr h

lemma nodesList_nodup (num : ℕ) : (nodesList num).Nodup := by
  rw [nodesList, List.nodup_cons]
  constructor
  · intro h
    obtain ⟨i, _, hi⟩ := List.mem_map.mp h
    exact NodeId.noConfusion hi
  · exact (List.nodup_range num).map (fun i j h => NodeId.cand.inj h)

lemma mem_nodesList {num : ℕ} {n : NodeId} :
    n ∈ nodesList num ↔ n = NodeId.root ∨ ∃ j, j < num ∧ n = NodeId.cand j := by
  rw [nodesList]
  simp only [List.mem_cons, List.mem_map, List.mem_range]
  constructor
  · rintro (rfl | ⟨j, hj, rfl⟩)
    · exact Or.inl rfl
    · exact Or.inr ⟨j, hj, rfl⟩
  · rintro (rfl | ⟨j, hj, rfl⟩)
    · exact Or.inl rfl
    · exact Or.inr ⟨j, hj, rfl⟩

lemma buildEdges_mem {coords : List (ℚ × ℚ)} {cpos : ℚ × ℚ} {e : PEdge}
    (he : e ∈ buildEdges coords cpos) :
    e.1 ∈ nodesList coords.length ∧ e.2.1 ∈ nodesList coords.length ∧ e.1 ≠ e.2.1 ∧
      e.2.2 = sqDist (pos coords cpos e.1) (pos coords cpos e.2.1) ∧
      keep coords cpos (e.1, e.2.1) = true := by
  obtain ⟨p, hp, rfl⟩ := List.mem_map.mp he
  obtain ⟨hp1, hp2⟩ := List.mem_filter.mp hp
  obtain ⟨hm1, hm2⟩ := mem_orderedPairs hp1
  exact ⟨hm1, hm2, orderedPairs_ne (nodesList_nodup _) hp1, rfl, hp2⟩

lemma buildEdges_pairwise (coords : List (ℚ × ℚ)) (cpos : ℚ × ℚ) :
    (buildEdges coords cpos).Pairwise
      (fun e g => ¬ samePair (e.1, e.2.1) (g.1, g.2.1)) := by
  rw [buildEdges]
  refine List.pairwise_map.mpr ?_
  exact ((orderedPairs_pairwise (nodesList_nodup _)).filter _)

lemma buildEdges_nodup (coords : List (ℚ × ℚ)) (cpos : ℚ × ℚ) :
    (buildEdges coords cpos).Nodup := by
  refine (buildEdges_pairwise coords cpos).imp_of_mem ?_
  intro e g _ _ h heg
  exact h (heg ▸ samePair_refl _)

lemma keep_symm (coords : List (ℚ × ℚ)) (cpos : ℚ × ℚ) (n1 n2 : NodeId) :
    keep coords cpos (n1, n2) = keep coords cpos (n2, n1) := by
  have hsd : sqDist (pos coords cpos n1) (pos coords cpos n2) =
      sqDist (pos coords cpos n2) (pos coords cpos n1) := by
    rw [sqDist, sqDist]; ring
  rw [keep, keep]
  simp only [hsd, max_comm (sqDistToRoot coords cpos n1) (sqDistToRoot coords cpos n2)]
  rw [Bool.or_comm (decide (n1 = NodeId.root)) (decide (n2 = NodeId.root))]

lemma buildEdges_complete {coords : List (ℚ × ℚ)} {cpos : ℚ × ℚ} {n1 n2 : NodeId}
    (h1 : n1 ∈ nodesList coords.length) (h2 : n2 ∈ nodesList coords.length)
    (hne : n1 ≠ n2) (hk : keep coords cpos (n1, n2) = true) :
    (n1, n2, sqDist (pos coords cpos n1) (pos coords cpos n2)) ∈ buildEdges coords cpos ∨
      (n2, n1, sqDist (pos coords cpos n2) (pos coords cpos n1)) ∈ buildEdges coords cpos := by
  rcases orderedPairs_complete h1 h2 hne with h | h
  · left
    rw [buildEdges]
    exact List.mem_map.mpr ⟨(n1, n2), List.mem_filter.mpr ⟨h, hk⟩, rfl⟩
  · right
    rw [buildEdges]
    refine List.mem_map.mpr ⟨(n2, n1), List.mem_filter.mpr ⟨h, ?_⟩, rfl⟩
    rw [keep_symm coords cpos n2 n1]
    exact hk

lemma root_edge_mem {coords : List (ℚ × ℚ)} (cpos : ℚ × ℚ) {j : ℕ}
    (hj : j < coords.length) :
    (NodeId.root, NodeId.cand j,
      sqDist cpos (pos coords cpos (NodeId.cand j))) ∈ buildEdges coords cpos := by
  rw [buildEdges]
  refine List.mem_map.mpr ⟨(NodeId.root, NodeId.cand j), List.mem_filter.mpr ⟨?_, ?_⟩, ?_⟩
  · rw [nodesList, orderedPairs, List.mem_append]
    left
    exact List.mem_map.mpr ⟨NodeId.cand j,
      List.mem_map.mpr ⟨j, List.mem_range.mpr hj, rfl⟩, rfl⟩
  · rw [keep]
    simp
  · rw [pos]

lemma adjacent_eq_true_iff {edges : List PEdge} {x y : NodeId} :
    adjacent edges x y = true ↔
      ∃ e ∈ edges, (e.1 = x ∧ e.2.1 = y) ∨ (e.1 = y ∧ e.2.1 = x) := by
  rw [adjacent, List.any_eq_true]
  simp only [Bool.or_eq_true, Bool.and_eq_true, decide_eq_true_eq]

lemma sum_filter_insert (f : NodeId → ℚ) (x m : NodeId) (adj : NodeId → Bool)
    (l : List NodeId) :
    l.Nodup → m ∈ l → m ≠ x → adj m = false →
    ((l.filter (fun n => decide (n ≠ x) && (decide (m = n) || adj n))).map f).sum =
      f m + ((l.filter (fun n => decide (n ≠ x) && adj n)).map f).sum := by
  induction l with
  | nil => intro _ hm; simp at hm
  | cons y t ih =>
    intro hnd hm hmx hadj
    obtain ⟨hy, ht⟩ := List.nodup_cons.mp hnd
    rcases List.mem_cons.mp hm with rfl | hm2
    · have hcondL : (decide (m ≠ x) && (decide (m = m) || adj m)) = true := by
        simp [hmx]
      have hcondR : ¬ ((decide (m ≠ x) && adj m) = true) := by
        simp [hadj]
      rw [List.filter_cons, List.filter_cons, if_pos hcondL, if_neg hcondR]
      have hft : t.filter (fun n => decide (n ≠ x) && (decide (m = n) || adj n)) =
          t.filter (fun n => decide (n ≠ x) && adj n) := by
        refine List.filter_congr ?_
        intro n hn
        have hmn : ¬ (m = n) := by
          intro h
          rw [h] at hy
          exact hy hn
        simp [hmn]
      rw [hft, List.map_cons, List.sum_cons]
    · have hym : ¬ (m = y) := by
        intro h
        rw [← h] at hy
        exact hy hm2
      have hdmy : decide (m = y) = false := by simp [hym]
      rw [List.filter_cons, List.filter_cons]
      by_cases hq : (decide (y ≠ x) && adj y) = true
      · have hpL : (decide (y ≠ x) && (decide (m = y) || adj y)) = true := by
          rw [hdmy, Bool.false_or]
          exact hq
        rw [if_pos hpL, if_pos hq, List.map_cons, List.sum_cons, List.map_cons,
          List.sum_cons, ih ht hm2 hmx hadj]
        ring
      · have hpL : ¬ ((decide (y ≠ x) && (decide (m = y) || adj y)) = true) := by
          rw [hdmy, Bool.false_or]
          exact hq
        rw [if_neg hpL, if_neg hq]
        exact ih ht hm2 hmx hadj

lemma flow_sum_code_eq_spec (f : NodeId → NodeId → ℚ) (x : NodeId)
    (nds : List NodeId) (hnd : nds.Nodup) :
    ∀ edges : List PEdge,
      (∀ e ∈ edges, e.1 ∈ nds ∧ e.2.1 ∈ nds ∧ e.1 ≠ e.2.1) →
      edges.Pairwise (fun e g => ¬ samePair (e.1, e.2.1) (g.1, g.2.1)) →
      ((nds.filter (fun n => decide (n ≠ x) && adjacent edges x n)).map
          (fun n => f x n)).sum =
        (edges.map (fun e =>
          if e.1 = x then f x e.2.1 else if e.2.1 = x then f x e.1 else 0)).sum := by
  intro edges
  induction edges with
  | nil =>
    intro _ _
    simp [adjacent]
  | cons e rest ih =>
    intro hmem hpw
    obtain ⟨he1, he2, hne⟩ := hmem e (List.mem_cons_self e rest)
    obtain ⟨hhead, htail⟩ := List.pairwise_cons.mp hpw
    have hmemr : ∀ g ∈ rest, g.1 ∈ nds ∧ g.2.1 ∈ nds ∧ g.1 ≠ g.2.1 :=
      fun g hg => hmem g (List.mem_cons_of_mem _ hg)
    rw [List.map_cons, List.sum_cons]
    by_cases hx1 : e.1 = x
    · have hm2x : e.2.1 ≠ x := fun h => hne (hx1.trans h.symm)
      have hadj : (fun n => decide (n ≠ x) && adjacent (e :: rest) x n) =
          (fun n => decide (n ≠ x) && (decide (e.2.1 = n) || adjacent rest x n)) := by
        funext n
        rw [adjacent, adjacent, List.any_cons]
        simp [hx1, hm2x]
      have hnradj : adjacent rest x e.2.1 = false := by
        by_contra h
        rw [Bool.not_eq_false, adjacent_eq_true_iff] at h
        obtain ⟨g, hg, hgp⟩ := h
        refine hhead g hg ?_
        rcases hgp with ⟨hg1, hg2⟩ | ⟨hg1, hg2⟩
        · exact Or.inl ⟨hx1.trans hg1.symm, hg2.symm⟩
        · exact Or.inr ⟨hx1.trans hg2.symm, hg1.symm⟩
      rw [hadj, sum_filter_insert (f x) x e.2.1 (adjacent rest x) nds hnd he2 hm2x hnradj,
        ih hmemr htail, if_pos hx1]
    · by_cases hx2 : e.2.1 = x
      · have hm1x : e.1 ≠ x := hx1
        have hadj : (fun n => decide (n ≠ x) && adjacent (e :: rest) x n) =
            (fun n => decide (n ≠ x) && (decide (e.1 = n) || adjacent rest x n)) := by
          funext n
          rw [adjacent, adjacent, List.any_cons]
          simp [hx2, hm1x]
        have hnradj : adjacent rest x e.1 = false := by
          by_contra h
          rw [Bool.not_eq_false, adjacent_eq_true_iff] at h
          obtain ⟨g, hg, hgp⟩ := h
          refine hhead g hg ?_
          rcases hgp with ⟨hg1, hg2⟩ | ⟨hg1, hg2⟩
          · exact Or.inr ⟨hg2.symm, hx2.trans hg1.symm⟩
          · exact Or.inl ⟨hg1.symm, hx2.trans hg2.symm⟩
        rw [hadj, sum_filter_insert (f x) x e.1 (adjacent rest x) nds hnd he1
            (fun h => hne (h.trans hx2.symm)) hnradj,
          ih hmemr htail, if_neg hx1, if_pos hx2]
      · have hadj : (fun n => decide (n ≠ x) && adjacent (e :: rest) x n) =
            (fun n => decide (n ≠ x) && adjacent rest x n) := by
          funext n
          rw [adjacent, adjacent, List.any_cons]
          simp [hx1, hx2]
        rw [hadj, ih hmemr htail, if_neg hx1, if_neg hx2, zero_add]

lemma buildEdges_mem_pack {coords : List (ℚ × ℚ)} {cpos : ℚ × ℚ} :
    ∀ e ∈ buildEdges coords cpos,
      e.1 ∈ nodesList coords.length ∧ e.2.1 ∈ nodesList coords.length ∧ e.1 ≠ e.2.1 :=
  fun e he => ⟨(buildEdges_mem he).1, (buildEdges_mem he).2.1, (buildEdges_mem he).2.2.1⟩

lemma flowOutCode_eq_spec (coords : List (ℚ × ℚ)) (cpos : ℚ × ℚ) (a : Assignment)
    (x : NodeId) :
    flowOutCode (buildEdges coords cpos) coords.length a x =
      flowOutSpec (buildEdges coords cpos) a x := by
  rw [flowOutCode, flowOutSpec]
  exact flow_sum_code_eq_spec a.flowVal x (nodesList coords.length)
    (nodesList_nodup _) (buildEdges coords cpos) buildEdges_mem_pack
    (buildEdges_pairwise coords cpos)

lemma flowInCode_eq_spec (coords : List (ℚ × ℚ)) (cpos : ℚ × ℚ) (a : Assignment)
    (x : NodeId) :
    flowInCode (buildEdges coords cpos) coords.length a x =
      flowInSpec (buildEdges coords cpos) a x := by
  rw [flowInCode, flowInSpec]
  exact flow_sum_code_eq_spec (fun u v => a.flowVal v u) x (nodesList coords.length)
    (nodesList_nodup _) (buildEdges coords cpos) buildEdges_mem_pack
    (buildEdges_pairwise coords cpos)

lemma nonRootNodeSum_eq (num : ℕ) (g : NodeId → ℚ) :
    (((nodesList num).filter (fun n => decide (n ≠ NodeId.root))).map g).sum =
      ((List.range num).map (fun i => g (NodeId.cand i))).sum := by
  rw [nodesList, List.filter_cons, if_neg (by simp), List.filter_map]
  have hall : (List.range num).filter
      ((fun n => decide (n ≠ NodeId.root)) ∘ NodeId.cand) = List.range num := by
    refine List.filter_eq_self.mpr ?_
    intro i _
    simp
  rw [hall, List.map_map]
  rfl

lemma binary_sum_eq_filter_length :
    ∀ l : List ℚ, (∀ q ∈ l, isBinary q) →
      (((l.filter (fun q => decide ((0.5 : ℚ) < q))).length : ℚ) = l.sum) := by
  intro l
  induction l with
  | nil => intro _; simp
  | cons q t ih =>
    intro hb
    rcases hb q (List.mem_cons_self q t) with h | h
    · rw [List.filter_cons, if_neg (by rw [h]; norm_num), List.sum_cons, h, zero_add]
      exact ih (fun r hr => hb r (List.mem_cons_of_mem _ hr))
    · rw [List.filter_cons, if_pos (by rw [h]; norm_num), List.sum_cons, h,
        List.length_cons]
      push_cast
      rw [ih (fun r hr => hb r (List.mem_cons_of_mem _ hr))]
      ring

/-- Trivial all-zero valuation, used to instantiate witnesses. -/
def zeroAssign : Assignment where
  nodeVal := fun _ => 0
  arcVal := fun _ _ => 0
  flowVal := fun _ _ => 0

/-- Solver oracle that reports no incumbent. -/
def zeroSolver : Solver := fun _ _ _ _ _ => ⟨0, zeroAssign⟩

/-- C1: for every candidate list with 1 ≤ count ≤ 1500 and clamped k at least
1, the constraint set that `milp_kmst` builds over the pruned edges (root
selection fixed to 1, sum of non-root selection variables = k-1, sum of all
arc variables = k-1, per-edge orientation exclusivity, per-arc flow capacity
linkage, arc-implies-both-endpoints, net root outflow = k-1, net inflow of
every non-root node = its selection variable) is exactly the conjunction of
spec section 4.2: an assignment is feasible for the code-built model iff it
satisfies the spec conjunction. -/
theorem milp_kmst_constraints_match_spec42 (coords : List (ℚ × ℚ)) (cpos : ℚ × ℚ)
    (k : ℤ) (h1 : 1 ≤ coords.length) (h2 : coords.length ≤ 1500)
    (hk : 1 ≤ clampedK coords.length k) :
    ∀ a : Assignment,
      codeFeasible (buildEdges coords cpos) coords.length (clampedK coords.length k) a ↔
        spec42Feasible (buildEdges coords cpos) coords.length (clampedK coords.length k) a := by
  intro a
  constructor
  · rintro ⟨A, B, C, D, E, F, G, H⟩
    refine ⟨B, ?_, ?_, ?_, C, ?_, E, F, ?_, ?_⟩
    · intro e he
      obtain ⟨a1, a2, a3, a4, a5, a6, _, _, _⟩ := A e he
      exact ⟨a1, a2, a3, a4, a5, a6⟩
    · intro e he
      exact (A e he).2.2.2.2.2.2.1
    · intro e he
      exact ⟨(A e he).2.2.2.2.2.2.2.1, (A e he).2.2.2.2.2.2.2.2⟩
    · rw [nonRootNodeSum_eq]
      exact D
    · rw [← flowOutCode_eq_spec, ← flowInCode_eq_spec]
      exact G
    · intro n hn hnroot
      rcases mem_nodesList.mp hn with rfl | ⟨j, hj, rfl⟩
      · exact absurd rfl hnroot
      · rw [← flowInCode_eq_spec, ← flowOutCode_eq_spec]
        exact H j (List.mem_range.mpr hj)
  · rintro ⟨B, A1, A2, A3, C, D, E, F, G, H⟩
    refine ⟨?_, B, C, ?_, E, F, ?_, ?_⟩
    · intro e he
      obtain ⟨a1, a2, a3, a4, a5, a6⟩ := A1 e he
      exact ⟨a1, a2, a3, a4, a5, a6, A2 e he, (A3 e he).1, (A3 e he).2⟩
    · rw [← nonRootNodeSum_eq]
      exact D
    · rw [flowOutCode_eq_spec, flowInCode_eq_spec]
      exact G
    · intro j hj
      rw [flowInCode_eq_spec, flowOutCode_eq_spec]
      exact H (NodeId.cand j)
        (mem_nodesList.mpr (Or.inr ⟨j, List.mem_range.mp hj, rfl⟩))
        (fun h => NodeId.noConfusion h)

/-- Witness for C1 at one candidate, k = 2 and the zero valuation. -/
theorem milp_kmst_constraints_match_spec42_witness :
    codeFeasible (buildEdges [((3 : ℚ), 4)] (0, 0)) [((3 : ℚ), 4)].length
        (clampedK [((3 : ℚ), 4)].length 2) zeroAssign ↔
      spec42Feasible (buildEdges [((3 : ℚ), 4)] (0, 0)) [((3 : ℚ), 4)].length
        (clampedK [((3 : ℚ), 4)].length 2) zeroAssign :=
  milp_kmst_constraints_match_spec42 [((3 : ℚ), 4)] (0, 0) 2
    (by decide) (by decide) (by decide) zeroAssign

lemma edgeKey_cases (n1 n2 : NodeId) :
    edgeKey n1 n2 = (n1, n2) ∨ edgeKey n1 n2 = (n2, n1) := by
  rw [edgeKey]
  by_cases h : nodeStr n1 < nodeStr n2
  · exact Or.inl (if_pos h)
  · exact Or.inr (if_neg h)

lemma edgeKey_samePair {a b c d : NodeId} (h : edgeKey a b = edgeKey c d) :
    samePair (a, b) (c, d) := by
  rcases edgeKey_cases a b with h1 | h1 <;> rcases edgeKey_cases c d with h2 | h2 <;>
    rw [h1, h2] at h <;> obtain ⟨e1, e2⟩ := Prod.ext_iff.mp h
  · exact Or.inl ⟨e1, e2⟩
  · exact Or.inr ⟨e1, e2⟩
  · exact Or.inr ⟨e2, e1⟩
  · exact Or.inl ⟨e2, e1⟩

lemma decodeEdges_eq_filter (a : Assignment) :
    ∀ (edges : List PEdge) (seen : List (NodeId × NodeId)),
      edges.Pairwise (fun e g => ¬ samePair (e.1, e.2.1) (g.1, g.2.1)) →
      (∀ e ∈ edges, edgeKey e.1 e.2.1 ∉ seen) →
      decodeEdges a edges seen = edges.filter (selectedArc a) := by
  intro edges
  induction edges with
  | nil =>
    intro seen _ _
    rw [decodeEdges, List.filter_nil]
  | cons e rest ih =>
    intro seen hpw hseen
    obtain ⟨hhead, htail⟩ := List.pairwise_cons.mp hpw
    rw [decodeEdges, List.filter_cons]
    by_cases hsel : selectedArc a e = true
    · rw [if_pos hsel, if_pos hsel,
        if_neg (hseen e (List.mem_cons_self e rest))]
      refine congrArg (e :: ·) (ih (edgeKey e.1 e.2.1 :: seen) htail ?_)
      intro g hg hkey
      rcases List.mem_cons.mp hkey with hk | hk
      · exact hhead g hg (samePair_symm (edgeKey_samePair hk))
      · exact hseen g (List.mem_cons_of_mem _ hg) hk
    · rw [if_neg hsel, if_neg hsel]
      exact ih seen htail (fun g hg => hseen g (List.mem_cons_of_mem _ hg))

lemma arcSum_binary {x y : ℚ} (hx : isBinary x) (hy : isBinary y) (hxy : x + y ≤ 1) :
    isBinary (x + y) := by
  rcases hx with rfl | rfl <;> rcases hy with rfl | rfl
  · exact Or.inl (by norm_num)
  · exact Or.inr (by norm_num)
  · exact Or.inr (by norm_num)
  · exact absurd hxy (by norm_num)

lemma selectedArc_iff_sum {a : Assignment} {e : PEdge}
    (hx : isBinary (a.arcVal e.1 e.2.1)) (hy : isBinary (a.arcVal e.2.1 e.1)) :
    selectedArc a e = decide ((0.5 : ℚ) < a.arcVal e.1 e.2.1 + a.arcVal e.2.1 e.1) := by
  rcases hx with h1 | h1 <;> rcases hy with h2 | h2 <;>
    rw [selectedArc, h1, h2] <;> norm_num

lemma selected_count_bridge (a : Assignment) (edges : List PEdge)
    (hbin : ∀ e ∈ edges, isBinary (a.arcVal e.1 e.2.1) ∧ isBinary (a.arcVal e.2.1 e.1)) :
    (edges.filter (selectedArc a)).length =
      ((edges.map (fun e => a.arcVal e.1 e.2.1 + a.arcVal e.2.1 e.1)).filter
        (fun q => decide ((0.5 : ℚ) < q))).length := by
  rw [List.filter_map, List.length_map]
  refine congrArg List.length (List.filter_congr ?_)
  intro e he
  exact selectedArc_iff_sum (hbin e he).1 (hbin e he).2

lemma decodeNodes_filter_bridge (num : ℕ) (a : Assignment) :
    ((List.range num).filter
        (fun i => decide ((0.5 : ℚ) < a.nodeVal (NodeId.cand i)))).length =
      (((List.range num).map (fun i => a.nodeVal (NodeId.cand i))).filter
        (fun q => decide ((0.5 : ℚ) < q))).length := by
  rw [List.filter_map, List.length_map]
  rfl

lemma filter_eq_singleton_of_nodup {α : Type} [DecidableEq α] :
    ∀ l : List α, l.Nodup → ∀ e ∈ l,
      (l.filter (fun g => decide (g = e))).length = 1 := by
  intro l
  induction l with
  | nil => intro _ e he; simp at he
  | cons x t ih =>
    intro hnd e he
    obtain ⟨hx, ht⟩ := List.nodup_cons.mp hnd
    rcases List.mem_cons.mp he with rfl | he2
    · rw [List.filter_cons, if_pos (by simp)]
      have hnil : t.filter (fun g => decide (g = e)) = [] := by
        refine List.filter_eq_nil.mpr ?_
        intro g hg
        simp only [decide_eq_true_eq]
        intro hge
        rw [hge] at hg
        exact hx hg
      rw [hnil]
      rfl
    · have hxe : ¬ (x = e) := by
        intro h
        rw [h] at hx
        exact hx he2
      rw [List.filter_cons, if_neg (by simp [hxe])]
      exact ih ht e he2

/-- Solver oracle that reports one incumbent with the all-zero valuation. -/
def oneSolver : Solver := fun _ _ _ _ _ => ⟨1, zeroAssign⟩

/-- C4: for every run in which the solver reports at least one incumbent, the
decoded edge list is exactly the sublist of pruned edges whose forward or
backward arc variable exceeds 0.5, each entry carrying the weight stored at
pruning time; each selected pruned edge is emitted exactly once, and no two
decoded entries share an unordered endpoint pair. -/
theorem decoder_edges_exact (solver : Solver) (coords : List (ℚ × ℚ))
    (cpos : ℚ × ℚ) (k : ℤ) (mipGap timeLimit : ℚ)
    (h1 : 1 ≤ coords.length) (h2 : coords.length ≤ 1500)
    (hsol : (solver (buildEdges coords cpos) coords.length
      (clampedK coords.length k) mipGap timeLimit).solCount ≠ 0) :
    (milp_kmst solver coords cpos k mipGap timeLimit).2.2 =
        (buildEdges coords cpos).filter
          (selectedArc (solver (buildEdges coords cpos) coords.length
            (clampedK coords.length k) mipGap timeLimit).assign) ∧
      (∀ e ∈ buildEdges coords cpos,
        selectedArc (solver (buildEdges coords cpos) coords.length
          (clampedK coords.length k) mipGap timeLimit).assign e = true →
        ((milp_kmst solver coords cpos k mipGap timeLimit).2.2.filter
          (fun g => decide (g = e))).length = 1) ∧
      (milp_kmst solver coords cpos k mipGap timeLimit).2.2.Pairwise
        (fun e g => ¬ samePair (e.1, e.2.1) (g.1, g.2.1)) := by
  have hres : (milp_kmst solver coords cpos k mipGap timeLimit).2.2 =
      decodeEdges (solver (buildEdges coords cpos) coords.length
        (clampedK coords.length k) mipGap timeLimit).assign (buildEdges coords cpos) [] := by
    rw [milp_kmst, if_neg (by omega), if_neg (by omega)]
    simp only [kmstCore]
    rw [if_neg hsol]
  have hfil := decodeEdges_eq_filter
    (solver (buildEdges coords cpos) coords.length
      (clampedK coords.length k) mipGap timeLimit).assign
    (buildEdges coords cpos) [] (buildEdges_pairwise coords cpos)
    (fun e _ => List.not_mem_nil _)
  refine ⟨hres.trans hfil, ?_, ?_⟩
  · intro e he hsel
    rw [hres, hfil]
    exact filter_eq_singleton_of_nodup _
      ((buildEdges_nodup coords cpos).filter _) e
      (List.mem_filter.mpr ⟨he, hsel⟩)
  · rw [hres, hfil]
    exact (buildEdges_pairwise coords cpos).filter _

/-- Witness for C4 at one candidate with an incumbent-reporting solver. -/
theorem decoder_edges_exact_witness :
    (milp_kmst oneSolver [((3 : ℚ), 4)] (0, 0) 2 0 0).2.2 =
        (buildEdges [((3 : ℚ), 4)] (0, 0)).filter
          (selectedArc (oneSolver (buildEdges [((3 : ℚ), 4)] (0, 0))
            [((3 : ℚ), 4)].length (clampedK [((3 : ℚ), 4)].length 2) 0 0).assign) ∧
      (∀ e ∈ buildEdges [((3 : ℚ), 4)] (0, 0),
        selectedArc (oneSolver (buildEdges [((3 : ℚ), 4)] (0, 0))
          [((3 : ℚ), 4)].length (clampedK [((3 : ℚ), 4)].length 2) 0 0).assign e = true →
        ((milp_kmst oneSolver [((3 : ℚ), 4)] (0, 0) 2 0 0).2.2.filter
          (fun g => decide (g = e))).length = 1) ∧
      (milp_kmst oneSolver [((3 : ℚ), 4)] (0, 0) 2 0 0).2.2.Pairwise
        (fun e g => ¬ samePair (e.1, e.2.1) (g.1, g.2.1)) :=
  decoder_edges_exact oneSolver [((3 : ℚ), 4)] (0, 0) 2 0 0
    (by decide) (by decide) (by decide)

/-- C5: whenever the guards admit the input (so the solver is actually
invoked) and the solver reports zero incumbents, `milp_kmst` returns the
degenerate result (root only, no edges), for every candidate count. -/
theorem no_incumbent_degenerate (solver : Solver) (coords : List (ℚ × ℚ))
    (cpos : ℚ × ℚ) (k : ℤ) (mipGap timeLimit : ℚ)
    (h1 : 1 ≤ coords.length) (h2 : coords.length ≤ 1500)
    (hsol : (solver (buildEdges coords cpos) coords.length
      (clampedK coords.length k) mipGap timeLimit).solCount = 0) :
    (milp_kmst solver coords cpos k mipGap timeLimit).2 = ([NodeId.root], []) := by
  rw [milp_kmst, if_neg (by omega), if_neg (by omega)]
  simp only [kmstCore]
  rw [if_pos hsol]

/-- Witness for C5 with one candidate and the no-incumbent solver. -/
theorem no_incumbent_degenerate_witness :
    (milp_kmst zeroSolver [((3 : ℚ), 4)] (0, 0) 2 0 0).2 = ([NodeId.root], []) :=
  no_incumbent_degenerate zeroSolver [((3 : ℚ), 4)] (0, 0) 2 0 0
    (by decide) (by decide) (by decide)

/-- C6: with zero candidate positions the function returns exactly
`([], [])` immediately; the result is the same for every solver oracle, which
expresses that the solver is never invoked. -/
theorem empty_candidates_result (solver : Solver) (coords : List (ℚ × ℚ))
    (cpos : ℚ × ℚ) (k : ℤ) (mipGap timeLimit : ℚ) (h : coords.length = 0) :
    milp_kmst solver coords cpos k mipGap timeLimit = ([emptyMsg], [], []) := by
  rw [milp_kmst, if_pos h]

/-- Witness for C6 on the empty list. -/
theorem empty_candidates_result_witness :
    milp_kmst zeroSolver [] (0, 0) 3 0 0 = ([emptyMsg], [], []) :=
  empty_candidates_result zeroSolver [] (0, 0) 3 0 0 (by decide)

/-- C7: with more than 1500 candidates the function returns the empty result
plus the capacity diagnostic; the result is the same for every solver oracle
(the solver is never invoked) and no exception path exists. -/
theorem capacity_guard_result (solver : Solver) (coords : List (ℚ × ℚ))
    (cpos : ℚ × ℚ) (k : ℤ) (mipGap timeLimit : ℚ) (h : 1500 < coords.length) :
    milp_kmst solver coords cpos k mipGap timeLimit = ([capacityMsg], [], []) := by
  rw [milp_kmst, if_neg (by omega), if_pos h]

set_option maxRecDepth 4000 in
/-- Witness for C7 at 1501 candidates. -/
theorem capacity_guard_result_witness :
    milp_kmst zeroSolver (List.replicate 1501 ((3 : ℚ), 4)) (0, 0) 3 0 0 =
      ([capacityMsg], [], []) :=
  capacity_guard_result zeroSolver (List.replicate 1501 ((3 : ℚ), 4)) (0, 0) 3 0 0
    (by rw [List.length_replicate]; omega)

/-- C10: every count from 1 up to and including 1500 passes the capacity
guard, so `milp_kmst` proceeds to the model-building body `kmstCore` (only
counts strictly above 1500 are rejected), and every candidate node is
adjacent to the root in the pruned edge list, because root-incident edges are
always kept. -/
theorem capacity_boundary (solver : Solver) (coords : List (ℚ × ℚ))
    (cpos : ℚ × ℚ) (k : ℤ) (mipGap timeLimit : ℚ)
    (h1 : 1 ≤ coords.length) (h2 : coords.length ≤ 1500) :
    milp_kmst solver coords cpos k mipGap timeLimit =
        kmstCore solver coords cpos k mipGap timeLimit ∧
      ∀ j < coords.length,
        (NodeId.root, NodeId.cand j,
          sqDist cpos (pos coords cpos (NodeId.cand j))) ∈ buildEdges coords cpos := by
  constructor
  · rw [milp_kmst, if_neg (by omega), if_neg (by omega)]
  · intro j hj
    exact root_edge_mem cpos hj

set_option maxRecDepth 4000 in
/-- Witness for C10 at exactly 1500 candidates. -/
theorem capacity_boundary_witness :
    milp_kmst zeroSolver (List.replicate 1500 ((3 : ℚ), 4)) (0, 0) 7 0 0 =
        kmstCore zeroSolver (List.replicate 1500 ((3 : ℚ), 4)) (0, 0) 7 0 0 ∧
      ∀ j < (List.replicate 1500 ((3 : ℚ), 4)).length,
        (NodeId.root, NodeId.cand j,
          sqDist (0, 0) (pos (List.replicate 1500 ((3 : ℚ), 4)) (0, 0) (NodeId.cand j))) ∈
          buildEdges (List.replicate 1500 ((3 : ℚ), 4)) (0, 0) :=
  capacity_boundary zeroSolver (List.replicate 1500 ((3 : ℚ), 4)) (0, 0) 7 0 0
    (by rw [List.length_replicate]; omega) (by rw [List.length_replicate])

lemma decodeNodes_length {coords : List (ℚ × ℚ)} {cpos : ℚ × ℚ} {k : ℤ}
    {a : Assignment}
    (hfeas : codeFeasible (buildEdges coords cpos) coords.length k a) :
    ((decodeNodes coords.length a).length : ℚ) = (k : ℚ) := by
  obtain ⟨A, B, C, D, E, F, G, H⟩ := hfeas
  have hb : ∀ q ∈ (List.range coords.length).map
      (fun i => a.nodeVal (NodeId.cand i)), isBinary q := by
    intro q hq
    obtain ⟨i, hi, rfl⟩ := List.mem_map.mp hq
    exact B (NodeId.cand i)
      (mem_nodesList.mpr (Or.inr ⟨i, List.mem_range.mp hi, rfl⟩))
  rw [decodeNodes, List.length_cons, List.length_map]
  push_cast
  rw [decodeNodes_filter_bridge,
    binary_sum_eq_filter_length ((List.range coords.length).map
      (fun i => a.nodeVal (NodeId.cand i))) hb, D]
  ring

lemma selectedEdges_length {coords : List (ℚ × ℚ)} {cpos : ℚ × ℚ} {k : ℤ}
    {a : Assignment}
    (hfeas : codeFeasible (buildEdges coords cpos) coords.length k a) :
    (((buildEdges coords cpos).filter (selectedArc a)).length : ℚ) = (k : ℚ) - 1 := by
  obtain ⟨A, B, C, D, E, F, G, H⟩ := hfeas
  have hbin : ∀ e ∈ buildEdges coords cpos,
      isBinary (a.arcVal e.1 e.2.1) ∧ isBinary (a.arcVal e.2.1 e.1) :=
    fun e he => ⟨(A e he).1, (A e he).2.1⟩
  have hb : ∀ q ∈ (buildEdges coords cpos).map
      (fun e => a.arcVal e.1 e.2.1 + a.arcVal e.2.1 e.1), isBinary q := by
    intro q hq
    obtain ⟨e, he, rfl⟩ := List.mem_map.mp hq
    exact arcSum_binary (A e he).1 (A e he).2.1 (A e he).2.2.2.2.2.2.1
  rw [selected_count_bridge a _ hbin,
    binary_sum_eq_filter_length ((buildEdges coords cpos).map
      (fun e => a.arcVal e.1 e.2.1 + a.arcVal e.2.1 e.1)) hb, E]

/-- Assignment selecting only the root, with no arcs and no flow. -/
def rootAssign : Assignment where
  nodeVal := fun n => if n = NodeId.root then 1 else 0
  arcVal := fun _ _ => 0
  flowVal := fun _ _ => 0

/-- Solver oracle that reports one incumbent selecting only the root. -/
def rootSolver : Solver := fun _ _ _ _ _ => ⟨1, rootAssign⟩

lemma buildEdges_single :
    buildEdges [((3 : ℚ), 4)] (0, 0) = [(NodeId.root, NodeId.cand 0, 25)] := by
  rw [buildEdges]
  norm_num [nodesList, orderedPairs, keep, sqDist, sqDistToRoot, pos,
    List.range_succ, List.filter_cons]

lemma cand_ne_root (i : ℕ) : (NodeId.cand i = NodeId.root) = False :=
  eq_false (fun h => NodeId.noConfusion h)

lemma root_ne_cand (i : ℕ) : (NodeId.root = NodeId.cand i) = False :=
  eq_false (fun h => NodeId.noConfusion h)

lemma rootAssign_feasible :
    codeFeasible (buildEdges [((3 : ℚ), 4)] (0, 0)) [((3 : ℚ), 4)].length
      (clampedK [((3 : ℚ), 4)].length 10) rootAssign := by
  rw [buildEdges_single]
  show codeFeasible _ 1 1 _
  rw [codeFeasible]
  norm_num [isBinary, rootAssign, nodesList, List.range_succ, flowOutCode, flowInCode,
    adjacent, List.filter_cons, cand_ne_root, root_ne_cand]

/-- C3 counterexample: with 5 candidates and k = 10 the code clamps k to 5
(the candidate count), not to 6 (candidate count plus the root) as the claim
states: line 37 of the source is `k = num_nodes`. -/
theorem clamp_counterexample :
    clampedK [((0 : ℚ), 0), ((0 : ℚ), 1), ((0 : ℚ), 2), ((0 : ℚ), 3), ((0 : ℚ), 4)].length 10 = 5 ∧
      clampedK [((0 : ℚ), 0), ((0 : ℚ), 1), ((0 : ℚ), 2), ((0 : ℚ), 3), ((0 : ℚ), 4)].length 10 ≠ 6 := by
  constructor
  · rw [clampedK]
    decide
  · rw [clampedK]
    decide

/-- C3 amended: when k exceeds the candidate count, `milp_kmst` clamps k to
`|candidatePositions|` (without the root); consequently with 5 candidates and
k = 10 the clamped k is 5 and a non-degenerate result has 5 selected nodes in
total, that is 4 beyond the root, and 4 edges.  Stated generally: under the
guards, with k above the count and an incumbent that satisfies the model
constraints, the clamped k is the count, the node list has `count` entries
(root plus count - 1 candidates) and the edge list has `count - 1` entries. -/
theorem clamp_amended (solver : Solver) (coords : List (ℚ × ℚ)) (cpos : ℚ × ℚ)
    (k : ℤ) (mipGap timeLimit : ℚ)
    (h1 : 1 ≤ coords.length) (h2 : coords.length ≤ 1500)
    (hk : (coords.length : ℤ) < k)
    (hsol : (solver (buildEdges coords cpos) coords.length
      (clampedK coords.length k) mipGap timeLimit).solCount ≠ 0)
    (hfeas : codeFeasible (buildEdges coords cpos) coords.length
      (clampedK coords.length k)
      (solver (buildEdges coords cpos) coords.length
        (clampedK coords.length k) mipGap timeLimit).assign) :
    clampedK coords.length k = (coords.length : ℤ) ∧
      (milp_kmst solver coords cpos k mipGap timeLimit).2.1.length = coords.length ∧
      (milp_kmst solver coords cpos k mipGap timeLimit).2.2.length = coords.length - 1 := by
  have hck : clampedK coords.length k = (coords.length : ℤ) := by
    rw [clampedK, if_pos hk]
  have hmil1 : (milp_kmst solver coords cpos k mipGap timeLimit).2.1 =
      decodeNodes coords.length (solver (buildEdges coords cpos) coords.length
        (clampedK coords.length k) mipGap timeLimit).assign := by
    rw [milp_kmst, if_neg (by omega), if_neg (by omega)]
    simp only [kmstCore]
    rw [if_neg hsol]
  have hmil2 : (milp_kmst solver coords cpos k mipGap timeLimit).2.2 =
      decodeEdges (solver (buildEdges coords cpos) coords.length
        (clampedK coords.length k) mipGap timeLimit).assign (buildEdges coords cpos) [] := by
    rw [milp_kmst, if_neg (by omega), if_neg (by omega)]
    simp only [kmstCore]
    rw [if_neg hsol]
  have hckq : ((clampedK coords.length k : ℤ) : ℚ) = (coords.length : ℚ) := by
    rw [hck]
    push_cast
    ring
  refine ⟨hck, ?_, ?_⟩
  · have h := decodeNodes_length hfeas
    rw [hmil1]
    exact_mod_cast h.trans hckq
  · have h := selectedEdges_length hfeas
    rw [hmil2, decodeEdges_eq_filter _ _ [] (buildEdges_pairwise coords cpos)
      (fun e _ => List.not_mem_nil _)]
    have h2 : ((((buildEdges coords cpos).filter (selectedArc (solver
        (buildEdges coords cpos) coords.length (clampedK coords.length k)
        mipGap timeLimit).assign)).length : ℚ)) = ((coords.length - 1 : ℕ) : ℚ) := by
      rw [h, hckq, Nat.cast_sub h1, Nat.cast_one]
    exact_mod_cast h2

/-- Witness for the amended C3 at one candidate and k = 10. -/
theorem clamp_amended_witness :
    clampedK [((3 : ℚ), 4)].length 10 = ([((3 : ℚ), 4)].length : ℤ) ∧
      (milp_kmst rootSolver [((3 : ℚ), 4)] (0, 0) 10 0 0).2.1.length = [((3 : ℚ), 4)].length ∧
      (milp_kmst rootSolver [((3 : ℚ), 4)] (0, 0) 10 0 0).2.2.length = [((3 : ℚ), 4)].length - 1 :=
  clamp_amended rootSolver [((3 : ℚ), 4)] (0, 0) 10 0 0
    (by decide) (by decide) (by decide) (by decide) rootAssign_feasible

/-- C8 counterexample: with an empty candidate list and k = 1 the function
returns `([], [])`, not `([root], [])`, so the result is not `([root], [])`
regardless of the candidate list. -/
theorem k_one_counterexample :
    (milp_kmst zeroSolver [] (0, 0) 1 0 0).2 ≠ ([NodeId.root], []) := by
  simp [milp_kmst]

/-- C8 amended: for candidate lists that pass the guards (count between 1 and
1500), if every incumbent the solver reports satisfies the model constraints,
then k = 1 yields exactly `([root], [])`: the k = 1 constraints force every
selection variable to zero, and the no-incumbent path returns the same
degenerate pair. -/
theorem k_one_amended (solver : Solver) (coords : List (ℚ × ℚ)) (cpos : ℚ × ℚ)
    (mipGap timeLimit : ℚ)
    (h1 : 1 ≤ coords.length) (h2 : coords.length ≤ 1500)
    (hfeas : (solver (buildEdges coords cpos) coords.length
        (clampedK coords.length 1) mipGap timeLimit).solCount ≠ 0 →
      codeFeasible (buildEdges coords cpos) coords.length (clampedK coords.length 1)
        (solver (buildEdges coords cpos) coords.length
          (clampedK coords.length 1) mipGap timeLimit).assign) :
    (milp_kmst solver coords cpos 1 mipGap timeLimit).2 = ([NodeId.root], []) := by
  have hck : clampedK coords.length 1 = 1 := by
    rw [clampedK, if_neg (by omega)]
  rw [milp_kmst, if_neg (by omega), if_neg (by omega)]
  simp only [kmstCore]
  by_cases hsol : (solver (buildEdges coords cpos) coords.length
      (clampedK coords.length 1) mipGap timeLimit).solCount = 0
  · rw [if_pos hsol]
  · rw [if_neg hsol]
    have hf := hfeas hsol
    have hckq : ((clampedK coords.length 1 : ℤ) : ℚ) = 1 := by
      rw [hck]
      norm_num
    have hn := decodeNodes_length hf
    have hn2 : (decodeNodes coords.length (solver (buildEdges coords cpos)
        coords.length (clampedK coords.length 1) mipGap timeLimit).assign).length = 1 := by
      exact_mod_cast hn.trans hckq
    have he := selectedEdges_length hf
    have he2 : ((buildEdges coords cpos).filter
        (selectedArc (solver (buildEdges coords cpos) coords.length
          (clampedK coords.length 1) mipGap timeLimit).assign)).length = 0 := by
      have h0 : ((((buildEdges coords cpos).filter (selectedArc (solver
          (buildEdges coords cpos) coords.length (clampedK coords.length 1)
          mipGap timeLimit).assign)).length : ℚ)) = 0 := by
        rw [he, hckq]
        norm_num
      exact_mod_cast h0
    have hnodes : decodeNodes coords.length (solver (buildEdges coords cpos)
        coords.length (clampedK coords.length 1) mipGap timeLimit).assign =
        [NodeId.root] := by
      rw [decodeNodes] at hn2 ⊢
      rw [List.length_cons] at hn2
      have hz := List.length_eq_zero.mp (by omega :
        (((List.range coords.length).filter
          (fun i => decide ((0.5 : ℚ) < ((solver (buildEdges coords cpos)
            coords.length (clampedK coords.length 1) mipGap
            timeLimit).assign).nodeVal (NodeId.cand i)))).map NodeId.cand).length = 0)
      rw [hz]
    have hedges : decodeEdges (solver (buildEdges coords cpos) coords.length
        (clampedK coords.length 1) mipGap timeLimit).assign
        (buildEdges coords cpos) [] = [] := by
      rw [decodeEdges_eq_filter _ _ [] (buildEdges_pairwise coords cpos)
        (fun e _ => List.not_mem_nil _)]
      exact List.length_eq_zero.mp he2
    rw [hnodes, hedges]

/-- Witness for the amended C8 at one candidate with the no-incumbent
solver. -/
theorem k_one_amended_witness :
    (milp_kmst zeroSolver [((3 : ℚ), 4)] (0, 0) 1 0 0).2 = ([NodeId.root], []) :=
  k_one_amended zeroSolver [((3 : ℚ), 4)] (0, 0) 0 0
    (by decide) (by decide) (fun h => absurd rfl h)

instance (p q : NodeId × NodeId) : Decidable (samePair p q) :=
  inferInstanceAs (Decidable ((p.1 = q.1 ∧ p.2 = q.2) ∨ (p.1 = q.2 ∧ p.2 = q.1)))

lemma samePair_trans_right {p q r : NodeId × NodeId}
    (hp : samePair p r) (hq : samePair q r) : samePair p q := by
  rcases hp with ⟨h1, h2⟩ | ⟨h1, h2⟩ <;> rcases hq with ⟨h3, h4⟩ | ⟨h3, h4⟩
  · exact Or.inl ⟨h1.trans h3.symm, h2.trans h4.symm⟩
  · exact Or.inr ⟨h1.trans h4.symm, h2.trans h3.symm⟩
  · exact Or.inr ⟨h1.trans h4.symm, h2.trans h3.symm⟩
  · exact Or.inl ⟨h1.trans h3.symm, h2.trans h4.symm⟩

lemma pairwise_filter_length_le_one {α : Type} {r : α → α → Prop} {p : α → Bool}
    (l : List α) (hpw : l.Pairwise (fun x y => ¬ r x y))
    (hcomp : ∀ x y, p x = true → p y = true → r x y) :
    (l.filter p).length ≤ 1 := by
  have h2 := hpw.filter p
  cases hfl : l.filter p with
  | nil => simp
  | cons a t =>
    cases t with
    | nil => simp
    | cons b t2 =>
      exfalso
      rw [hfl] at h2
      have hr := (List.pairwise_cons.mp h2).1 b (List.mem_cons_self b t2)
      have hpa : p a = true :=
        List.of_mem_filter (l := l) (by rw [hfl]; exact List.mem_cons_self a _)
      have hpb : p b = true :=
        List.of_mem_filter (l := l)
          (by rw [hfl]; exact List.mem_cons_of_mem a (List.mem_cons_self b t2))
      exact hr (hcomp a b hpa hpb)

lemma sqDist_nonneg (p q : ℚ × ℚ) : 0 ≤ sqDist p q := by
  rw [sqDist]
  have h1 := mul_self_nonneg (p.1 - q.1)
  have h2 := mul_self_nonneg (p.2 - q.2)
  linarith

lemma sqDist_comm (p q : ℚ × ℚ) : sqDist p q = sqDist q p := by
  rw [sqDist, sqDist]
  ring

lemma sqDistToRoot_nonneg (coords : List (ℚ × ℚ)) (cpos : ℚ × ℚ) (n : NodeId) :
    0 ≤ sqDistToRoot coords cpos n :=
  sqDist_nonneg _ _

lemma sqrt_max_eq (x y : ℝ) :
    Real.sqrt (max x y) = max (Real.sqrt x) (Real.sqrt y) := by
  rcases le_total x y with h | h
  · rw [max_eq_right h, max_eq_right (Real.sqrt_le_sqrt h)]
  · rw [max_eq_left h, max_eq_left (Real.sqrt_le_sqrt h)]

lemma sq_le_max_iff_sqrt {a b c : ℚ} (hb : 0 ≤ b) (hc : 0 ≤ c) :
    a ≤ max b c ↔
      Real.sqrt (a : ℝ) ≤ max (Real.sqrt (b : ℝ)) (Real.sqrt (c : ℝ)) := by
  rw [← sqrt_max_eq]
  rw [Real.sqrt_le_sqrt_iff (by exact_mod_cast le_max_of_le_left hb)]
  constructor
  · intro h
    have : ((a : ℚ) : ℝ) ≤ ((max b c : ℚ) : ℝ) := by exact_mod_cast h
    rw [Rat.cast_max] at this
    exact this
  · intro h
    rw [← Rat.cast_max] at h
    exact_mod_cast h

lemma keep_iff_real (coords : List (ℚ × ℚ)) (cpos : ℚ × ℚ) (n1 n2 : NodeId) :
    keep coords cpos (n1, n2) = true ↔
      (n1 = NodeId.root ∨ n2 = NodeId.root ∨
        Real.sqrt ((sqDist (pos coords cpos n1) (pos coords cpos n2) : ℚ) : ℝ) ≤
          max (Real.sqrt ((sqDistToRoot coords cpos n1 : ℚ) : ℝ))
            (Real.sqrt ((sqDistToRoot coords cpos n2 : ℚ) : ℝ))) := by
  rw [keep]
  simp only [Bool.or_eq_true, decide_eq_true_eq]
  rw [sq_le_max_iff_sqrt (sqDistToRoot_nonneg coords cpos n1)
    (sqDistToRoot_nonneg coords cpos n2), or_assoc]

/-- C2: for accepted candidate lists (1 to 1500 candidates), the pruned edge
list contains an entry for the unordered pair of two distinct nodes, with the
stored weight equal to the squared Euclidean distance of the two positions
(so its exact Euclidean weight is the square root of the stored value), iff
one endpoint is the root or the Euclidean distance of the pair is at most the
larger of the two endpoint-to-root Euclidean distances; and the pair is
enumerated at most once. -/
theorem pruned_edges_characterization (coords : List (ℚ × ℚ)) (cpos : ℚ × ℚ)
    (h1 : 1 ≤ coords.length) (h2 : coords.length ≤ 1500) (n1 n2 : NodeId)
    (hm1 : n1 ∈ nodesList coords.length) (hm2 : n2 ∈ nodesList coords.length)
    (hne : n1 ≠ n2) :
    ((∃ w : ℚ,
        ((n1, n2, w) ∈ buildEdges coords cpos ∨ (n2, n1, w) ∈ buildEdges coords cpos) ∧
          w = sqDist (pos coords cpos n1) (pos coords cpos n2)) ↔
      (n1 = NodeId.root ∨ n2 = NodeId.root ∨
        Real.sqrt ((sqDist (pos coords cpos n1) (pos coords cpos n2) : ℚ) : ℝ) ≤
          max (Real.sqrt ((sqDistToRoot coords cpos n1 : ℚ) : ℝ))
            (Real.sqrt ((sqDistToRoot coords cpos n2 : ℚ) : ℝ)))) ∧
      ((buildEdges coords cpos).filter
        (fun e => decide (samePair (e.1, e.2.1) (n1, n2)))).length ≤ 1 := by
  constructor
  · constructor
    · rintro ⟨w, hmem | hmem, hw⟩
      · exact (keep_iff_real coords cpos n1 n2).mp (buildEdges_mem hmem).2.2.2.2
      · have hk := (buildEdges_mem hmem).2.2.2.2
        rw [keep_symm coords cpos n2 n1] at hk
        exact (keep_iff_real coords cpos n1 n2).mp hk
    · intro hcond
      have hk := (keep_iff_real coords cpos n1 n2).mpr hcond
      rcases buildEdges_complete hm1 hm2 hne hk with h | h
      · exact ⟨sqDist (pos coords cpos n1) (pos coords cpos n2), Or.inl h, rfl⟩
      · refine ⟨sqDist (pos coords cpos n1) (pos coords cpos n2), Or.inr ?_, rfl⟩
        rw [sqDist_comm (pos coords cpos n1) (pos coords cpos n2)]
        exact h
  · refine pairwise_filter_length_le_one _ (buildEdges_pairwise coords cpos) ?_
    intro x y hx hy
    rw [decide_eq_true_eq] at hx hy
    exact samePair_trans_right hx hy

/-- Witness for C2 at one candidate, testing the root-candidate pair. -/
theorem pruned_edges_characterization_witness :
    ((∃ w : ℚ,
        ((NodeId.root, NodeId.cand 0, w) ∈ buildEdges [((3 : ℚ), 4)] (0, 0) ∨
          (NodeId.cand 0, NodeId.root, w) ∈ buildEdges [((3 : ℚ), 4)] (0, 0)) ∧
          w = sqDist (pos [((3 : ℚ), 4)] (0, 0) NodeId.root)
            (pos [((3 : ℚ), 4)] (0, 0) (NodeId.cand 0))) ↔
      (NodeId.root = NodeId.root ∨ NodeId.cand 0 = NodeId.root ∨
        Real.sqrt ((sqDist (pos [((3 : ℚ), 4)] (0, 0) NodeId.root)
            (pos [((3 : ℚ), 4)] (0, 0) (NodeId.cand 0)) : ℚ) : ℝ) ≤
          max (Real.sqrt ((sqDistToRoot [((3 : ℚ), 4)] (0, 0) NodeId.root : ℚ) : ℝ))
            (Real.sqrt ((sqDistToRoot [((3 : ℚ), 4)] (0, 0) (NodeId.cand 0) : ℚ) : ℝ)))) ∧
      ((buildEdges [((3 : ℚ), 4)] (0, 0)).filter
        (fun e => decide (samePair (e.1, e.2.1) (NodeId.root, NodeId.cand 0)))).length ≤ 1 :=
  pruned_edges_characterization [((3 : ℚ), 4)] (0, 0) (by decide) (by decide)
    NodeId.root (NodeId.cand 0) (by simp [nodesList]) (by simp [nodesList])
    (fun h => NodeId.noConfusion h)

end KMST
